import Mathlib

/-!
Verification of the adaptive selection/session engine and pronunciation cache
of the flashcard application.  Every definition in this file is a shallow
embedding of a function of the TypeScript sources:

* `WordService` (src/app/services/word.service.ts): `updateResults`,
  `refreshAllWords`, `calculateScoreFromResults`, `getNextWord`.
* `SessionService` (sessions service file): `startSession`,
  `selectWordsForSession`, `updateSessionProgress`, `navigateToNextCard`,
  `navigateToPreviousCard`, `completeSession`.
* `PronunciationService` (src/app/services/pronunciation.service.ts):
  `getCachedPronunciation`, `cachePronunciation`, `evictLeastUsedEntry`,
  `removeCachedPronunciation`, `pronounceWord`.

JavaScript `Map` objects are modelled as insertion-ordered association lists
with unique keys; `Math.random()` draws are modelled as oracle parameters.
-/

namespace Flashcard

/-- Outcome tags stored in a word's `lastResults` history. -/
inductive Res where
  | correct
  | wrong
deriving DecidableEq, Repr

abbrev Key := String

/-- Value lookup in an insertion-ordered association list (JS `Map.get`). -/
def lookupEntry {κ α : Type} [DecidableEq κ] (m : List (κ × α)) (k : κ) : Option α :=
  match m with
  | [] => none
  | (k₂, v) :: rest => if k₂ = k then some v else lookupEntry rest k

/-- Key update in an insertion-ordered association list (JS `Map.set`):
replaces the value in place when the key is present, appends otherwise. -/
def setEntry {κ α : Type} [DecidableEq κ] (m : List (κ × α)) (k : κ) (v : α) :
    List (κ × α) :=
  match m with
  | [] => [(k, v)]
  | (k₂, v₂) :: rest => if k₂ = k then (k, v) :: rest else (k₂, v₂) :: setEntry rest k v

/-- Key removal in an association list (JS `Map.delete`). -/
def eraseKey {κ α : Type} [DecidableEq κ] (m : List (κ × α)) (k : κ) : List (κ × α) :=
  match m with
  | [] => []
  | (k₂, v₂) :: rest => if k₂ = k then rest else (k₂, v₂) :: eraseKey rest k

/-- The keys of an association list, in order. -/
def keysOf {κ α : Type} (m : List (κ × α)) : List κ :=
  m.map Prod.fst

/-- `WordService.calculateScoreFromResults`: the number of `correct` entries
in a results list (with an early return of 0 on the empty list, as in the
source). -/
def calculateScoreFromResults (results : List Res) : Nat :=
  if results.isEmpty then 0
  else (results.filter (fun r => r == Res.correct)).length

/-- A word as it sits in the backing lists (`WordService.words`, the custom
words of `DictionaryService`): its text key and the optional cached `score`
field that a stored object may or may not carry.  Fields irrelevant to the
claims (translation, article, bookmark flag) are not modelled. -/
structure BaseWord where
  word : Key
  score : Option Nat
deriving DecidableEq, Repr

/-- A word of `WordService.allWords` after `refreshAllWords` has applied the
stored results and the cached score. -/
structure WordView where
  word : Key
  lastResults : List Res
  score : Option Nat
deriving DecidableEq, Repr

/-- The mutable state of `WordService` that `updateResults` and
`refreshAllWords` read and write: the dictionary words, the custom words
(which override dictionary words by key), and the per-key results map. -/
structure WordState where
  words : List BaseWord
  customWords : List BaseWord
  wordResults : List (Key × List Res)
deriving Repr

/-- `this.wordResults.get(word) || []`. -/
def getResults (m : List (Key × List Res)) (k : Key) : List Res :=
  (lookupEntry m k).getD []

/-- The merge step of `WordService.refreshAllWords`: dictionary words are
inserted into a `Map` keyed by word text, then custom words override them
(`mergedWords.set`); the array of values is returned in `Map` insertion
order. -/
def mergeWords (dict custom : List BaseWord) : List BaseWord :=
  let step := fun (m : List (Key × BaseWord)) (w : BaseWord) => setEntry m w.word w
  (custom.foldl step (dict.foldl step [])).map Prod.snd

/-- `WordService.refreshAllWords`: rebuilds `allWords` from the merged word
lists, sets each word's `lastResults` from the results map, and computes the
cached score only when the merged object carries none
(`if (word.score === undefined)`). -/
def refreshAllWords (s : WordState) : List WordView :=
  (mergeWords s.words s.customWords).map (fun b =>
    let results := getResults s.wordResults b.word
    { word := b.word
      lastResults := results
      score :=
        match b.score with
        | some sc => some sc
        | none => some (calculateScoreFromResults results) })

/-- `WordService.updateResults`: appends the outcome to the word's stored
results, keeps only the last 3 entries (`slice(-3)`), and writes the list
back into the results map.  (`refreshAllWords` is then invoked; `allWords`
is recovered here by applying `refreshAllWords` to the resulting state.) -/
def updateResults (s : WordState) (k : Key) (r : Res) : WordState :=
  let currentResults := getResults s.wordResults k
  let pushed := currentResults ++ [r]
  let truncated := if pushed.length > 3 then pushed.drop (pushed.length - 3) else pushed
  { s with wordResults := setEntry s.wordResults k truncated }

/-- A sequence of `updateResults` calls applied in order. -/
def runUpdates (s : WordState) (us : List (Key × Res)) : WordState :=
  us.foldl (fun acc u => updateResults acc u.1 u.2) s

/-- `word.score || 0` of the source (an absent score reads as 0; a stored 0
also reads as 0, so `Option.getD 0` is exact). -/
def scoreOrZero (sc : Option Nat) : Nat :=
  sc.getD 0

/-- The per-score weight of `WordService.getNextWord`: score 0 words get 5
pool entries, score 1 words get 3, score 2 words get 1, anything else 0. -/
def weight (score : Nat) : Nat :=
  if score = 0 then 5
  else if score = 1 then 3
  else if score = 2 then 1
  else 0

/-- The flat weighted candidate pool of `WordService.getNextWord`: each
eligible word is pushed `weight(score)` times, in list order. -/
def weightedPool (eligible : List WordView) : List WordView :=
  match eligible with
  | [] => []
  | w :: rest => List.replicate (weight (scoreOrZero w.score)) w ++ weightedPool rest

/-- The eligibility filter of `WordService.getNextWord`:
`allWords.filter(word => (word.score || 0) < 3)`. -/
def eligibleWords (allWords : List WordView) : List WordView :=
  allWords.filter (fun w => scoreOrZero w.score < 3)

/-- `WordService.getNextWord`: filters out score-3 words, returns `none`
when nothing is eligible, otherwise builds the weighted pool and draws the
entry at the random index (`Math.floor(Math.random() * pool.length)`,
modelled as `r % pool.length` for an oracle value `r`); on an empty pool it
falls back to the first eligible word. -/
def getNextWord (allWords : List WordView) (r : Nat) : Option WordView :=
  if (eligibleWords allWords).isEmpty then none
  else if (weightedPool (eligibleWords allWords)).isEmpty then
    (eligibleWords allWords).head?
  else
    (weightedPool (eligibleWords allWords)).get?
      (r % (weightedPool (eligibleWords allWords)).length)

/-! ### Association-list lemmas -/

theorem mem_setEntry {κ α : Type} [DecidableEq κ] {m : List (κ × α)} {k : κ} {v : α}
    {p : κ × α} (h : p ∈ setEntry m k v) : p ∈ m ∨ p = (k, v) := by
  induction m with
  | nil => simpa [setEntry] using h
  | cons q rest ih =>
    obtain ⟨k₂, v₂⟩ := q
    simp only [setEntry] at h
    by_cases hk : k₂ = k
    · simp [hk] at h
      rcases h with h | h
      · exact Or.inr (by simp [h])
      · exact Or.inl (List.mem_cons_of_mem _ h)
    · simp [hk] at h
      rcases h with h | h
      · exact Or.inl (by simp [h])
      · rcases ih h with h' | h'
        · exact Or.inl (List.mem_cons_of_mem _ h')
        · exact Or.inr h'

theorem lookupEntry_mem {κ α : Type} [DecidableEq κ] {m : List (κ × α)} {k : κ} {v : α}
    (h : lookupEntry m k = some v) : (k, v) ∈ m := by
  induction m with
  | nil => simp [lookupEntry] at h
  | cons q rest ih =>
    obtain ⟨k₂, v₂⟩ := q
    simp only [lookupEntry] at h
    by_cases hk : k₂ = k
    · simp [hk] at h
      subst hk; subst h
      exact List.mem_cons_self _ _
    · simp [hk] at h
      exact List.mem_cons_of_mem _ (ih h)

theorem lookupEntry_setEntry_self {κ α : Type} [DecidableEq κ] (m : List (κ × α))
    (k : κ) (v : α) : lookupEntry (setEntry m k v) k = some v := by
  induction m with
  | nil => simp [setEntry, lookupEntry]
  | cons q rest ih =>
    obtain ⟨k₂, v₂⟩ := q
    by_cases hk : k₂ = k
    · simp [setEntry, lookupEntry, hk]
    · simp [setEntry, lookupEntry, hk, ih]

theorem lookupEntry_eq_none {κ α : Type} [DecidableEq κ] {m : List (κ × α)} {k : κ}
    (h : lookupEntry m k = none) : ∀ p ∈ m, p.1 ≠ k := by
  induction m with
  | nil => simp
  | cons q rest ih =>
    obtain ⟨k₂, v₂⟩ := q
    simp only [lookupEntry] at h
    by_cases hk : k₂ = k
    · simp [hk] at h
    · simp [hk] at h
      intro p hp
      rcases List.mem_cons.mp hp with h' | h'
      · simp [h', hk]
      · exact ih h p h'

/-! ### C1: the score/history invariant of the ledger -/

/-- Every backing word object (dictionary or custom) carries no cached
score field, as after a fresh load of `assets/words.json` and custom words
added through `addNewWord`. -/
def noPresetScores (s : WordState) : Prop :=
  (∀ b ∈ s.words, b.score = none) ∧ ∀ b ∈ s.customWords, b.score = none

/-- Every stored results history has at most 3 entries. -/
def resultsBounded (s : WordState) : Prop :=
  ∀ p ∈ s.wordResults, p.2.length ≤ 3

instance (s : WordState) : Decidable (noPresetScores s) := by
  unfold noPresetScores; infer_instance

instance (s : WordState) : Decidable (resultsBounded s) := by
  unfold resultsBounded; infer_instance

theorem getResults_length_le {m : List (Key × List Res)} (h : ∀ p ∈ m, p.2.length ≤ 3)
    (k : Key) : (getResults m k).length ≤ 3 := by
  unfold getResults
  cases hl : lookupEntry m k with
  | none => simp
  | some v => simpa using h (k, v) (lookupEntry_mem hl)

theorem updateResults_words (s : WordState) (k : Key) (r : Res) :
    (updateResults s k r).words = s.words := rfl

theorem updateResults_customWords (s : WordState) (k : Key) (r : Res) :
    (updateResults s k r).customWords = s.customWords := rfl

theorem runUpdates_words (s : WordState) (us : List (Key × Res)) :
    (runUpdates s us).words = s.words := by
  induction us generalizing s with
  | nil => rfl
  | cons u rest ih => simpa [runUpdates, List.foldl_cons] using ih (updateResults s u.1 u.2)

theorem runUpdates_customWords (s : WordState) (us : List (Key × Res)) :
    (runUpdates s us).customWords = s.customWords := by
  induction us generalizing s with
  | nil => rfl
  | cons u rest ih => simpa [runUpdates, List.foldl_cons] using ih (updateResults s u.1 u.2)

theorem updateResults_bounded {s : WordState} (h : resultsBounded s) (k : Key) (r : Res) :
    resultsBounded (updateResults s k r) := by
  intro p hp
  have hcur : (getResults s.wordResults k).length ≤ 3 := getResults_length_le h k
  simp only [updateResults] at hp
  rcases mem_setEntry hp with h' | h'
  · exact h p h'
  · subst h'
    by_cases hlen : (getResults s.wordResults k ++ [r]).length > 3
    · simp only [if_pos hlen, List.length_drop]
      omega
    · simp only [if_neg hlen]
      simp only [List.length_append, List.length_cons, List.length_nil] at hlen ⊢
      omega

theorem runUpdates_bounded {s : WordState} (h : resultsBounded s) (us : List (Key × Res)) :
    resultsBounded (runUpdates s us) := by
  induction us generalizing s with
  | nil => exact h
  | cons u rest ih =>
    simpa [runUpdates, List.foldl_cons] using ih (updateResults_bounded h u.1 u.2)

theorem foldl_setEntry_snd_mem {l : List BaseWord} {m : List (Key × BaseWord)}
    {q : Key × BaseWord}
    (h : q ∈ l.foldl (fun m w => setEntry m w.word w) m) : q ∈ m ∨ q.2 ∈ l := by
  induction l generalizing m with
  | nil => exact Or.inl h
  | cons w rest ih =>
    simp only [List.foldl_cons] at h
    rcases ih h with h' | h'
    · rcases mem_setEntry h' with h'' | h''
      · exact Or.inl h''
      · exact Or.inr (by simp [h''])
    · exact Or.inr (List.mem_cons_of_mem _ h')

theorem mergeWords_mem {dict custom : List BaseWord} {b : BaseWord}
    (h : b ∈ mergeWords dict custom) : b ∈ dict ∨ b ∈ custom := by
  unfold mergeWords at h
  obtain ⟨q, hq, hqb⟩ := List.mem_map.mp h
  rcases foldl_setEntry_snd_mem hq with h' | h'
  · rcases foldl_setEntry_snd_mem h' with h'' | h''
    · simp at h''
    · exact Or.inl (hqb ▸ h'')
  · exact Or.inr (hqb ▸ h')

/-- C1 falls on the code as stated: `refreshAllWords` recomputes the cached
score only when the merged word object carries none, and
`DictionaryService.improveTranslation` persists custom words together with
their then-current score.  In the state below the custom word "a" carries
the stale cached score 1 while its stored history holds two correct
answers; recording a third correct answer yields the history
`[correct, correct, correct]` but the cached score stays 1 ≠ 3. -/
theorem c1_counterexample :
    ¬ (∀ w ∈ refreshAllWords
          (updateResults
            { words := []
              customWords := [{ word := "a", score := some 1 }]
              wordResults := [("a", [Res.correct, Res.correct])] }
            "a" Res.correct),
        w.score = some (calculateScoreFromResults w.lastResults)) := by
  decide

/-- C1 (amended): provided no backing word object carries a pre-existing
cached score and every stored history has at most 3 entries (both hold
after a fresh load; custom words saved by `improveTranslation` violate the
first), then after every sequence of `updateResults` calls each word of
`allWords` has its cached score equal to the number of `correct` entries of
its `lastResults`, and `lastResults` has length at most 3. -/
theorem c1_theorem (s : WordState) (h1 : noPresetScores s) (h2 : resultsBounded s)
    (us : List (Key × Res)) :
    ∀ w ∈ refreshAllWords (runUpdates s us),
      w.score = some (calculateScoreFromResults w.lastResults) ∧
        w.lastResults.length ≤ 3 := by
  intro w hw
  unfold refreshAllWords at hw
  obtain ⟨b, hb, hbw⟩ := List.mem_map.mp hw
  have hscore : b.score = none := by
    rcases mergeWords_mem hb with h' | h'
    · exact h1.1 b (by rwa [runUpdates_words] at h')
    · exact h1.2 b (by rwa [runUpdates_customWords] at h')
  have hbound : resultsBounded (runUpdates s us) := runUpdates_bounded h2 us
  subst hbw
  constructor
  · simp [hscore]
  · simpa using getResults_length_le hbound b.word

/-- Witness for `c1_theorem` at a one-word dictionary and a single recorded
outcome. -/
theorem c1_witness :
    noPresetScores
        { words := [{ word := "a", score := none }], customWords := [], wordResults := [] } ∧
      resultsBounded
        { words := [{ word := "a", score := none }], customWords := [], wordResults := [] } ∧
      ∀ w ∈ refreshAllWords
          (runUpdates
            { words := [{ word := "a", score := none }], customWords := [],
              wordResults := [] }
            [("a", Res.correct)]),
        w.score = some (calculateScoreFromResults w.lastResults) ∧
          w.lastResults.length ≤ 3 :=
  ⟨by decide, by decide,
    c1_theorem _ (by decide) (by decide) [("a", Res.correct)]⟩

/-! ### C7: FIFO truncation of the 3-slot history -/

/-- C7: for every word whose stored history is
`[correct, correct, wrong]`, recording a further correct outcome stores the
history `[correct, wrong, correct]` (the oldest entry is dropped), and the
score computed from that history is 2. -/
theorem c7_theorem (s : WordState) (k : Key)
    (h : getResults s.wordResults k = [Res.correct, Res.correct, Res.wrong]) :
    getResults (updateResults s k Res.correct).wordResults k
        = [Res.correct, Res.wrong, Res.correct] ∧
      calculateScoreFromResults
        (getResults (updateResults s k Res.correct).wordResults k) = 2 := by
  have hset : (updateResults s k Res.correct).wordResults
      = setEntry s.wordResults k [Res.correct, Res.wrong, Res.correct] := by
    simp [updateResults, h]
  have h1 : getResults (updateResults s k Res.correct).wordResults k
      = [Res.correct, Res.wrong, Res.correct] := by
    rw [hset]
    unfold getResults
    rw [lookupEntry_setEntry_self]
    rfl
  exact ⟨h1, by rw [h1]; decide⟩

/-- Witness for `c7_theorem` at a concrete one-entry results map. -/
theorem c7_witness :
    getResults [("k", [Res.correct, Res.correct, Res.wrong])] "k"
        = [Res.correct, Res.correct, Res.wrong] ∧
      (getResults
          (updateResults
            { words := [], customWords := [],
              wordResults := [("k", [Res.correct, Res.correct, Res.wrong])] }
            "k" Res.correct).wordResults "k"
          = [Res.correct, Res.wrong, Res.correct] ∧
        calculateScoreFromResults
          (getResults
            (updateResults
              { words := [], customWords := [],
                wordResults := [("k", [Res.correct, Res.correct, Res.wrong])] }
              "k" Res.correct).wordResults "k") = 2) :=
  ⟨by decide,
    c7_theorem
      { words := [], customWords := [],
        wordResults := [("k", [Res.correct, Res.correct, Res.wrong])] }
      "k" (by decide)⟩

/-! ### C2 and C3: the weighted selection engine -/

theorem weight_pos {s : Nat} (h : s < 3) : 0 < weight s := by
  unfold weight
  split_ifs <;> omega

theorem mem_weightedPool {l : List WordView} {w : WordView}
    (h : w ∈ weightedPool l) : w ∈ l := by
  induction l with
  | nil => simpa [weightedPool] using h
  | cons v rest ih =>
    simp only [weightedPool, List.mem_append] at h
    rcases h with h | h
    · simp [List.eq_of_mem_replicate h]
    · exact List.mem_cons_of_mem _ (ih h)

theorem weightedPool_ne_nil {l : List WordView}
    (hne : l ≠ []) (h3 : ∀ w ∈ l, scoreOrZero w.score < 3) :
    weightedPool l ≠ [] := by
  cases l with
  | nil => exact absurd rfl hne
  | cons v rest =>
    have hw : 0 < weight (scoreOrZero v.score) :=
      weight_pos (h3 v (List.mem_cons_self _ _))
    simp only [weightedPool]
    intro hcontra
    rcases List.append_eq_nil.mp hcontra with ⟨h1, _⟩
    rw [List.replicate_eq_nil] at h1
    omega

theorem eligible_score_lt {ws : List WordView} {w : WordView}
    (h : w ∈ eligibleWords ws) : scoreOrZero w.score < 3 := by
  have := (List.mem_filter.mp h).2
  simpa using this

theorem getNextWord_draws_from_pool (ws : List WordView) (r : Nat)
    (hne : eligibleWords ws ≠ []) :
    getNextWord ws r
      = (weightedPool (eligibleWords ws)).get?
          (r % (weightedPool (eligibleWords ws)).length) := by
  have hpool : weightedPool (eligibleWords ws) ≠ [] :=
    weightedPool_ne_nil hne (fun w hw => eligible_score_lt hw)
  unfold getNextWord
  rw [if_neg (by simpa [List.isEmpty_iff] using hne)]
  simp only [List.isEmpty_iff]
  rw [if_neg hpool]

/-- C2: `getNextWord` only ever returns words of score below 3, and it
returns `none` exactly when every word of the list has score 3 (scores are
at most 3 in every state the service produces, which the hypothesis
records). -/
theorem c2_theorem (ws : List WordView) (r : Nat)
    (hb : ∀ w ∈ ws, scoreOrZero w.score ≤ 3) :
    (getNextWord ws r = none ↔ ∀ w ∈ ws, scoreOrZero w.score = 3) ∧
      ∀ w, getNextWord ws r = some w → scoreOrZero w.score < 3 := by
  by_cases he : eligibleWords ws = []
  · have hnone : getNextWord ws r = none := by
      unfold getNextWord
      rw [if_pos (by simpa [List.isEmpty_iff] using he)]
    refine ⟨⟨fun _ w hw => ?_, fun _ => hnone⟩, fun w hw => ?_⟩
    · have hnotlt := List.filter_eq_nil_iff.mp he w hw
      have h3 := hb w hw
      simp only [decide_eq_true_eq] at hnotlt
      omega
    · rw [hnone] at hw
      exact absurd hw (by simp)
  · have heq := getNextWord_draws_from_pool ws r he
    have hpool : weightedPool (eligibleWords ws) ≠ [] :=
      weightedPool_ne_nil he (fun w hw => eligible_score_lt hw)
    have hlen : 0 < (weightedPool (eligibleWords ws)).length :=
      List.length_pos.mpr hpool
    have hsome : (getNextWord ws r).isSome := by
      rw [heq]
      rw [List.get?_eq_get (Nat.mod_lt r hlen)]
      simp
    refine ⟨⟨fun hnone => ?_, fun hall => ?_⟩, fun w hw => ?_⟩
    · rw [hnone] at hsome
      simp at hsome
    · exact absurd (List.filter_eq_nil_iff.mpr (fun w hw => by
        have := hall w hw
        simp [this])) he
    · rw [heq] at hw
      exact eligible_score_lt (mem_weightedPool (List.get?_mem hw))

/-- Witness for `c2_theorem` at a two-word list with scores 0 and 3. -/
theorem c2_witness :
    (∀ w ∈ [({ word := "a", lastResults := [], score := some 0 } : WordView),
            { word := "b", lastResults := [], score := some 3 }],
        scoreOrZero w.score ≤ 3) ∧
      ((getNextWord [({ word := "a", lastResults := [], score := some 0 } : WordView),
            { word := "b", lastResults := [], score := some 3 }] 0 = none ↔
          ∀ w ∈ [({ word := "a", lastResults := [], score := some 0 } : WordView),
              { word := "b", lastResults := [], score := some 3 }],
            scoreOrZero w.score = 3) ∧
        ∀ w, getNextWord [({ word := "a", lastResults := [], score := some 0 } : WordView),
            { word := "b", lastResults := [], score := some 3 }] 0 = some w →
          scoreOrZero w.score < 3) :=
  ⟨by decide, c2_theorem _ 0 (by decide)⟩

theorem count_weightedPool {l : List WordView}
    (hnd : (l.map WordView.word).Nodup) {w : WordView} (hw : w ∈ l) :
    (weightedPool l).count w = weight (scoreOrZero w.score) := by
  induction l with
  | nil => simp at hw
  | cons v rest ih =>
    have hnd2 : v.word ∉ rest.map WordView.word ∧ (rest.map WordView.word).Nodup := by
      rw [List.map_cons, List.nodup_cons] at hnd
      exact hnd
    show (List.replicate (weight (scoreOrZero v.score)) v ++ weightedPool rest).count w = _
    rw [List.count_append, List.count_replicate]
    rcases List.mem_cons.mp hw with h | h
    · subst h
      have hnot : w ∉ weightedPool rest := by
        intro hmem
        exact hnd2.1 (List.mem_map_of_mem WordView.word (mem_weightedPool hmem))
      rw [List.count_eq_zero.mpr hnot]
      simp
    · have hne : ¬(v == w) = true := by
        intro hbeq
        have : v = w := by simpa using hbeq
        exact hnd2.1 (this ▸ List.mem_map_of_mem WordView.word h)
      rw [if_neg hne, ih hnd2.2 h]
      simp

/-- C3: in `getNextWord`, each eligible word contributes exactly
`weight(score)` copies to the flat candidate pool (5 for score 0, 3 for
score 1, 1 for score 2; word keys are distinct because `allWords` is built
from a key-indexed `Map`), and whenever some word is eligible the returned
word is the pool entry at the random index, i.e. a uniform draw over the
flat pool. -/
theorem c3_theorem (ws : List WordView) (r : Nat)
    (hnd : (ws.map WordView.word).Nodup) :
    (∀ w ∈ eligibleWords ws,
        (weightedPool (eligibleWords ws)).count w
          = if scoreOrZero w.score = 0 then 5
            else if scoreOrZero w.score = 1 then 3
            else 1) ∧
      (eligibleWords ws ≠ [] →
        getNextWord ws r
          = (weightedPool (eligibleWords ws)).get?
              (r % (weightedPool (eligibleWords ws)).length)) := by
  have hnd2 : ((eligibleWords ws).map WordView.word).Nodup :=
    List.Nodup.sublist (List.Sublist.map WordView.word (List.filter_sublist ws)) hnd
  refine ⟨fun w hw => ?_, fun hne => getNextWord_draws_from_pool ws r hne⟩
  rw [count_weightedPool hnd2 hw]
  have h3 : scoreOrZero w.score < 3 := eligible_score_lt hw
  unfold weight
  split_ifs <;> omega

/-- Witness for `c3_theorem` at a three-word list with scores 0, 1, 2. -/
theorem c3_witness :
    ([({ word := "a", lastResults := [], score := some 0 } : WordView),
        { word := "b", lastResults := [], score := some 1 },
        { word := "c", lastResults := [], score := some 2 }].map WordView.word).Nodup ∧
      ((∀ w ∈ eligibleWords
            [({ word := "a", lastResults := [], score := some 0 } : WordView),
              { word := "b", lastResults := [], score := some 1 },
              { word := "c", lastResults := [], score := some 2 }],
          (weightedPool (eligibleWords
              [({ word := "a", lastResults := [], score := some 0 } : WordView),
                { word := "b", lastResults := [], score := some 1 },
                { word := "c", lastResults := [], score := some 2 }])).count w
            = if scoreOrZero w.score = 0 then 5
              else if scoreOrZero w.score = 1 then 3
              else 1) ∧
        (eligibleWords
            [({ word := "a", lastResults := [], score := some 0 } : WordView),
              { word := "b", lastResults := [], score := some 1 },
              { word := "c", lastResults := [], score := some 2 }] ≠ [] →
          getNextWord
              [({ word := "a", lastResults := [], score := some 0 } : WordView),
                { word := "b", lastResults := [], score := some 1 },
                { word := "c", lastResults := [], score := some 2 }] 4
            = (weightedPool (eligibleWords
                  [({ word := "a", lastResults := [], score := some 0 } : WordView),
                    { word := "b", lastResults := [], score := some 1 },
                    { word := "c", lastResults := [], score := some 2 }])).get?
                (4 % (weightedPool (eligibleWords
                    [({ word := "a", lastResults := [], score := some 0 } : WordView),
                      { word := "b", lastResults := [], score := some 1 },
                      { word := "c", lastResults := [], score := some 2 }])).length))) :=
  ⟨by decide, c3_theorem _ 4 (by decide)⟩

/-! ### SessionService -/

/-- A committed per-card answer of `SessionService` (the strings
`'correct' | 'incorrect' | 'practice-again'`). -/
inductive Answer where
  | correct
  | incorrect
  | practiceAgain
deriving DecidableEq, Repr

/-- The `SessionProgress` record of `SessionService` (the
`sessionStartTime` timestamp is not modelled; `visitedCards` and
`cardAnswers` are the two index-keyed objects). -/
structure SessionProgress where
  currentCard : Nat
  totalCards : Nat
  correctCount : Int
  incorrectCount : Int
  practiceAgainCount : Int
  sessionCards : List WordView
  isComplete : Bool
  visitedCards : List (Nat × Answer)
  cardAnswers : List (Nat × Answer)
deriving DecidableEq, Repr

/-- The observable state of `SessionService`: the live
`sessionProgressSubject` value, the `sessionActiveSubject` flag, the
durable checkpoint stored under `current_session_progress`, and the
archived session history (modelled as the list of archived progress
records). -/
structure SessionState where
  progress : Option SessionProgress
  active : Bool
  storedSession : Option SessionProgress
  history : List SessionProgress
deriving DecidableEq, Repr

/-- The state before any session was started. -/
def emptySessionState : SessionState :=
  { progress := none, active := false, storedSession := none, history := [] }

/-- The fallback branch of `SessionService.selectWordsForSession`: when the
engine returned nothing or a duplicate, pick a not-yet-used word.  The
source sorts the unused words by ascending cached score with a
`Math.random() - 0.5` tie-break comparator and takes the first element;
since that comparator is randomized, the chosen element is modelled as the
oracle-selected entry `available[pick i % available.length]` (`none` is
only possible when every word is already used, matching the
`availableWords.length > 0` guard). -/
def sessionSelectFallback (allWords : List WordView) (pick : Nat → Nat)
    (acc : List WordView × List Key) (i : Nat) : List WordView × List Key :=
  match (allWords.filter (fun w => ¬ (w.word ∈ acc.2))).get?
      (pick i % (allWords.filter (fun w => ¬ (w.word ∈ acc.2))).length) with
  | some fb => (acc.1 ++ [fb], acc.2 ++ [fb.word])
  | none => acc

/-- One iteration of the selection loop of
`SessionService.selectWordsForSession`: ask `getNextWord` (its random draw
supplied by the oracle `draw i`); keep the word when it is fresh, otherwise
fall back to a not-yet-used word. -/
def sessionSelectStep (allWords : List WordView) (draw pick : Nat → Nat)
    (acc : List WordView × List Key) (i : Nat) : List WordView × List Key :=
  match getNextWord allWords (draw i) with
  | some w =>
    if ¬ (w.word ∈ acc.2) then (acc.1 ++ [w], acc.2 ++ [w.word])
    else sessionSelectFallback allWords pick acc i
  | none => sessionSelectFallback allWords pick acc i

/-- `SessionService.selectWordsForSession`: runs the selection loop
`min(cardsPerSession, words.length)` times, deduplicating by word key. -/
def selectWordsForSession (words : List WordView) (cardsPerSession : Nat)
    (draw pick : Nat → Nat) : List WordView :=
  ((List.range (min cardsPerSession words.length)).foldl
    (sessionSelectStep words draw pick) ([], [])).1

/-- `SessionService.startSession`: selects the session cards, builds a
fresh `SessionProgress`, publishes it, raises the active flag, and
checkpoints it.  Returns the new service state together with the returned
progress record. -/
def startSession (st : SessionState) (allWords : List WordView)
    (cardsPerSession : Nat) (draw pick : Nat → Nat) :
    SessionState × SessionProgress :=
  let sessionCards := selectWordsForSession allWords cardsPerSession draw pick
  let p : SessionProgress :=
    { currentCard := 0
      totalCards := sessionCards.length
      correctCount := 0
      incorrectCount := 0
      practiceAgainCount := 0
      sessionCards := sessionCards
      isComplete := false
      visitedCards := []
      cardAnswers := [] }
  ({ st with progress := some p, active := true, storedSession := some p }, p)

/-- `SessionService.completeSession`: archives the record into the session
history, republishes it as complete, lowers the active flag, and clears the
durable checkpoint. -/
def completeSession (st : SessionState) (p : SessionProgress) : SessionState :=
  { st with
      progress := some { p with isComplete := true }
      active := false
      storedSession := none
      history := st.history ++ [{ p with isComplete := true }] }

/-- The answer encoded by the two boolean arguments of
`updateSessionProgress` (`isPracticeAgain ? 'practice-again' : isCorrect ?
'correct' : 'incorrect'`). -/
def newAnswerOf (isCorrect isPracticeAgain : Bool) : Answer :=
  if isPracticeAgain then Answer.practiceAgain
  else if isCorrect then Answer.correct
  else Answer.incorrect

/-- The `if (previousAnswer) { ... count-- }` block of
`updateSessionProgress`: decrement the counter matching the previous
committed answer, if there was one. -/
def decrementFor (p : SessionProgress) (prev : Option Answer) : SessionProgress :=
  match prev with
  | some Answer.correct => { p with correctCount := p.correctCount - 1 }
  | some Answer.incorrect => { p with incorrectCount := p.incorrectCount - 1 }
  | some Answer.practiceAgain => { p with practiceAgainCount := p.practiceAgainCount - 1 }
  | none => p

/-- The `count++` block of `updateSessionProgress`: increment the counter
matching the new answer. -/
def incrementFor (p : SessionProgress) (a : Answer) : SessionProgress :=
  match a with
  | Answer.correct => { p with correctCount := p.correctCount + 1 }
  | Answer.incorrect => { p with incorrectCount := p.incorrectCount + 1 }
  | Answer.practiceAgain => { p with practiceAgainCount := p.practiceAgainCount + 1 }

/-- The progress record produced by `updateSessionProgress` from the loaded
progress: counters adjusted for the (re-)answer of the current card, the
answer written into `visitedCards` and `cardAnswers`, and the card index
advanced by one. -/
def applyAnswer (cp : SessionProgress) (isCorrect isPracticeAgain : Bool) :
    SessionProgress :=
  let newAnswer := newAnswerOf isCorrect isPracticeAgain
  let p2 := incrementFor
    (decrementFor cp (lookupEntry cp.cardAnswers cp.currentCard)) newAnswer
  { p2 with
      visitedCards := setEntry p2.visitedCards cp.currentCard newAnswer
      cardAnswers := setEntry p2.cardAnswers cp.currentCard newAnswer
      currentCard := p2.currentCard + 1 }

/-- `SessionService.updateSessionProgress`: a no-op when no progress is
loaded; otherwise decrements the counter of the previous committed answer
of the current card (if any), increments the counter of the new answer,
writes the answer into both tracking maps, advances the card index, and
either completes the session (when the index reaches `totalCards`) or
republishes and checkpoints the updated progress. -/
def updateSessionProgress (st : SessionState) (isCorrect : Bool)
    (isPracticeAgain : Bool) : SessionState :=
  match st.progress with
  | none => st
  | some currentProgress =>
    if (applyAnswer currentProgress isCorrect isPracticeAgain).currentCard
        ≥ (applyAnswer currentProgress isCorrect isPracticeAgain).totalCards then
      completeSession st
        { applyAnswer currentProgress isCorrect isPracticeAgain with isComplete := true }
    else
      { st with
          progress := some (applyAnswer currentProgress isCorrect isPracticeAgain)
          storedSession := some (applyAnswer currentProgress isCorrect isPracticeAgain) }

/-- `SessionService.navigateToNextCard`: advances the index unless already
at (or beyond) the last card; returns whether it moved. -/
def navigateToNextCard (st : SessionState) : SessionState × Bool :=
  match st.progress with
  | none => (st, false)
  | some currentProgress =>
    if currentProgress.currentCard ≥ currentProgress.totalCards - 1 then (st, false)
    else
      let p := { currentProgress with currentCard := currentProgress.currentCard + 1 }
      ({ st with progress := some p, storedSession := some p }, true)

/-- `SessionService.navigateToPreviousCard`: moves the index back unless at
the first card; returns whether it moved. -/
def navigateToPreviousCard (st : SessionState) : SessionState × Bool :=
  match st.progress with
  | none => (st, false)
  | some currentProgress =>
    if currentProgress.currentCard ≤ 0 then (st, false)
    else
      let p := { currentProgress with currentCard := currentProgress.currentCard - 1 }
      ({ st with progress := some p, storedSession := some p }, true)

/-- A user action applied to the session machine. -/
inductive SessOp where
  | record (isCorrect : Bool) (isPracticeAgain : Bool)
  | navNext
  | navPrev
deriving DecidableEq, Repr

/-- Apply one user action. -/
def applySessOp (st : SessionState) (op : SessOp) : SessionState :=
  match op with
  | SessOp.record c p => updateSessionProgress st c p
  | SessOp.navNext => (navigateToNextCard st).1
  | SessOp.navPrev => (navigateToPreviousCard st).1

/-- Apply a sequence of user actions. -/
def runSessOps (st : SessionState) (ops : List SessOp) : SessionState :=
  ops.foldl applySessOp st

/-! ### C4: the session counting invariant -/

/-- The number of entries of the committed-answer map carrying the answer
`a`, as an integer (counters are JS numbers and may in principle go
negative, so the invariant is stated over ℤ). -/
def answerCountInt (m : List (Nat × Answer)) (a : Answer) : Int :=
  ((m.filter (fun q => q.2 = a)).length : Int)

/-- 1 when the optional previous answer equals `a`, else 0. -/
def indAnswer (x : Option Answer) (a : Answer) : Int :=
  match x with
  | some w => if w = a then 1 else 0
  | none => 0

/-- The strengthened per-progress invariant: each counter equals the number
of committed answers of its kind, and the committed-answer map has one
entry per card index. -/
def countsInv (p : SessionProgress) : Prop :=
  p.correctCount = answerCountInt p.cardAnswers Answer.correct ∧
    p.incorrectCount = answerCountInt p.cardAnswers Answer.incorrect ∧
    p.practiceAgainCount = answerCountInt p.cardAnswers Answer.practiceAgain ∧
    (p.cardAnswers.map Prod.fst).Nodup

/-- The invariant lifted to the service state. -/
def sessInv (st : SessionState) : Prop :=
  ∀ p, st.progress = some p → countsInv p

theorem setEntry_of_lookup_none {κ α : Type} [DecidableEq κ] {m : List (κ × α)} {k : κ}
    (v : α) (h : lookupEntry m k = none) : setEntry m k v = m ++ [(k, v)] := by
  induction m with
  | nil => rfl
  | cons q rest ih =>
    obtain ⟨k₂, v₂⟩ := q
    simp only [lookupEntry] at h
    by_cases hk : k₂ = k
    · simp [hk] at h
    · simp [hk] at h
      simp [setEntry, hk, ih h]

theorem answerCountInt_append_single (m : List (Nat × Answer)) (k : Nat) (v a : Answer) :
    answerCountInt (m ++ [(k, v)]) a
      = answerCountInt m a + (if v = a then 1 else 0) := by
  simp only [answerCountInt, List.filter_append]
  by_cases hv : v = a
  · simp [hv]
  · simp [hv]

theorem answerCountInt_setEntry_some {m : List (Nat × Answer)} {k : Nat} {w : Answer}
    (v a : Answer) (h : lookupEntry m k = some w) :
    answerCountInt (setEntry m k v) a
      = answerCountInt m a + (if v = a then 1 else 0) - (if w = a then 1 else 0) := by
  induction m with
  | nil => simp [lookupEntry] at h
  | cons q rest ih =>
    obtain ⟨k₂, v₂⟩ := q
    simp only [lookupEntry] at h
    by_cases hk : k₂ = k
    · subst hk
      rw [if_pos rfl] at h
      injection h with h
      subst h
      simp only [setEntry, if_pos rfl]
      simp only [answerCountInt, List.filter_cons]
      by_cases hv : v = a <;> by_cases hw : v₂ = a <;> simp [hv, hw] <;> omega
    · simp only [hk, if_neg hk] at h
      simp only [setEntry, if_neg hk]
      simp only [answerCountInt, List.filter_cons] at ih ⊢
      by_cases hv2 : v₂ = a
      · simp only [hv2, decide_True, if_true]
        simp only [List.length_cons]
        have := ih h
        push_cast at this ⊢
        omega
      · simp only [hv2, decide_False, if_false]
        exact ih h

theorem keysOf_setEntry_some {κ α : Type} [DecidableEq κ] {m : List (κ × α)} {k : κ}
    {w : α} (v : α) (h : lookupEntry m k = some w) :
    (setEntry m k v).map Prod.fst = m.map Prod.fst := by
  induction m with
  | nil => simp [lookupEntry] at h
  | cons q rest ih =>
    obtain ⟨k₂, v₂⟩ := q
    simp only [lookupEntry] at h
    by_cases hk : k₂ = k
    · simp [setEntry, hk]
    · simp only [hk, if_neg hk] at h
      simp [setEntry, hk, ih h]

theorem not_mem_keys_of_lookup_none {κ α : Type} [DecidableEq κ] {m : List (κ × α)}
    {k : κ} (h : lookupEntry m k = none) : k ∉ m.map Prod.fst := by
  intro hk
  obtain ⟨p, hp, hpk⟩ := List.mem_map.mp hk
  exact lookupEntry_eq_none h p hp hpk

theorem nodup_append_key {α : Type} {l : List α} {x : α} (h : l.Nodup) (hx : x ∉ l) :
    (l ++ [x]).Nodup := by
  rw [List.nodup_append]
  exact ⟨h, List.nodup_singleton _, by
    intro a ha ha2
    simp at ha2
    exact hx (ha2 ▸ ha)⟩

theorem applyAnswer_cardAnswers (cp : SessionProgress) (c pa : Bool) :
    (applyAnswer cp c pa).cardAnswers
      = setEntry cp.cardAnswers cp.currentCard (newAnswerOf c pa) := by
  unfold applyAnswer
  cases hprev : lookupEntry cp.cardAnswers cp.currentCard with
  | none => simp [decrementFor, incrementFor]
            cases newAnswerOf c pa <;> rfl
  | some w =>
    cases w <;> cases hna : newAnswerOf c pa <;> simp [decrementFor, incrementFor, hna]

theorem applyAnswer_correctCount (cp : SessionProgress) (c pa : Bool) :
    (applyAnswer cp c pa).correctCount
      = cp.correctCount
          - indAnswer (lookupEntry cp.cardAnswers cp.currentCard) Answer.correct
          + indAnswer (some (newAnswerOf c pa)) Answer.correct := by
  unfold applyAnswer
  cases hprev : lookupEntry cp.cardAnswers cp.currentCard with
  | none => cases hna : newAnswerOf c pa <;> simp [decrementFor, incrementFor, indAnswer, hna]
  | some w =>
    cases w <;> cases hna : newAnswerOf c pa <;>
      simp [decrementFor, incrementFor, indAnswer, hna] <;> omega

theorem applyAnswer_incorrectCount (cp : SessionProgress) (c pa : Bool) :
    (applyAnswer cp c pa).incorrectCount
      = cp.incorrectCount
          - indAnswer (lookupEntry cp.cardAnswers cp.currentCard) Answer.incorrect
          + indAnswer (some (newAnswerOf c pa)) Answer.incorrect := by
  unfold applyAnswer
  cases hprev : lookupEntry cp.cardAnswers cp.currentCard with
  | none => cases hna : newAnswerOf c pa <;> simp [decrementFor, incrementFor, indAnswer, hna]
  | some w =>
    cases w <;> cases hna : newAnswerOf c pa <;>
      simp [decrementFor, incrementFor, indAnswer, hna] <;> omega

theorem applyAnswer_practiceAgainCount (cp : SessionProgress) (c pa : Bool) :
    (applyAnswer cp c pa).practiceAgainCount
      = cp.practiceAgainCount
          - indAnswer (lookupEntry cp.cardAnswers cp.currentCard) Answer.practiceAgain
          + indAnswer (some (newAnswerOf c pa)) Answer.practiceAgain := by
  unfold applyAnswer
  cases hprev : lookupEntry cp.cardAnswers cp.currentCard with
  | none => cases hna : newAnswerOf c pa <;> simp [decrementFor, incrementFor, indAnswer, hna]
  | some w =>
    cases w <;> cases hna : newAnswerOf c pa <;>
      simp [decrementFor, incrementFor, indAnswer, hna] <;> omega

theorem countsInv_applyAnswer {cp : SessionProgress} (c pa : Bool) (h : countsInv cp) :
    countsInv (applyAnswer cp c pa) := by
  obtain ⟨h1, h2, h3, h4⟩ := h
  cases hprev : lookupEntry cp.cardAnswers cp.currentCard with
  | none =>
    have hset := setEntry_of_lookup_none (newAnswerOf c pa) hprev
    have hkey := not_mem_keys_of_lookup_none hprev
    refine ⟨?_, ?_, ?_, ?_⟩
    · rw [applyAnswer_correctCount, applyAnswer_cardAnswers, hset,
        answerCountInt_append_single, hprev, h1]
      simp [indAnswer]
    · rw [applyAnswer_incorrectCount, applyAnswer_cardAnswers, hset,
        answerCountInt_append_single, hprev, h2]
      simp [indAnswer]
    · rw [applyAnswer_practiceAgainCount, applyAnswer_cardAnswers, hset,
        answerCountInt_append_single, hprev, h3]
      simp [indAnswer]
    · rw [applyAnswer_cardAnswers, hset, List.map_append]
      exact nodup_append_key h4 hkey
  | some w =>
    refine ⟨?_, ?_, ?_, ?_⟩
    · rw [applyAnswer_correctCount, applyAnswer_cardAnswers,
        answerCountInt_setEntry_some (newAnswerOf c pa) Answer.correct hprev, hprev, h1]
      simp only [indAnswer]
      split_ifs <;> omega
    · rw [applyAnswer_incorrectCount, applyAnswer_cardAnswers,
        answerCountInt_setEntry_some (newAnswerOf c pa) Answer.incorrect hprev, hprev, h2]
      simp only [indAnswer]
      split_ifs <;> omega
    · rw [applyAnswer_practiceAgainCount, applyAnswer_cardAnswers,
        answerCountInt_setEntry_some (newAnswerOf c pa) Answer.practiceAgain hprev, hprev, h3]
      simp only [indAnswer]
      split_ifs <;> omega
    · rw [applyAnswer_cardAnswers, keysOf_setEntry_some (newAnswerOf c pa) hprev]
      exact h4

theorem updateSessionProgress_none (st : SessionState) (c pa : Bool)
    (h : st.progress = none) : updateSessionProgress st c pa = st := by
  unfold updateSessionProgress
  rw [h]

theorem updateSessionProgress_some (st : SessionState) (c pa : Bool)
    (cp : SessionProgress) (h : st.progress = some cp) :
    updateSessionProgress st c pa
      = if (applyAnswer cp c pa).currentCard ≥ (applyAnswer cp c pa).totalCards then
          completeSession st { applyAnswer cp c pa with isComplete := true }
        else
          { st with
              progress := some (applyAnswer cp c pa)
              storedSession := some (applyAnswer cp c pa) } := by
  unfold updateSessionProgress
  rw [h]

theorem countsInv_isComplete {q : SessionProgress} (h : countsInv q) :
    countsInv { q with isComplete := true } := h

theorem sessInv_update {st : SessionState} (c pa : Bool) (h : sessInv st) :
    sessInv (updateSessionProgress st c pa) := by
  intro p hp
  cases hcp : st.progress with
  | none =>
    rw [updateSessionProgress_none st c pa hcp] at hp
    exact h p hp
  | some cp =>
    rw [updateSessionProgress_some st c pa cp hcp] at hp
    have hinv := countsInv_applyAnswer c pa (h cp hcp)
    split at hp
    · simp only [completeSession] at hp
      rw [Option.some.injEq] at hp
      subst hp
      exact hinv
    · simp only at hp
      rw [Option.some.injEq] at hp
      subst hp
      exact hinv

theorem navigateToNextCard_none (st : SessionState) (h : st.progress = none) :
    navigateToNextCard st = (st, false) := by
  unfold navigateToNextCard
  rw [h]

theorem navigateToNextCard_some (st : SessionState) (cp : SessionProgress)
    (h : st.progress = some cp) :
    navigateToNextCard st
      = if cp.currentCard ≥ cp.totalCards - 1 then (st, false)
        else
          ({ st with
              progress := some { cp with currentCard := cp.currentCard + 1 }
              storedSession := some { cp with currentCard := cp.currentCard + 1 } },
            true) := by
  unfold navigateToNextCard
  rw [h]

theorem navigateToPreviousCard_none (st : SessionState) (h : st.progress = none) :
    navigateToPreviousCard st = (st, false) := by
  unfold navigateToPreviousCard
  rw [h]

theorem navigateToPreviousCard_some (st : SessionState) (cp : SessionProgress)
    (h : st.progress = some cp) :
    navigateToPreviousCard st
      = if cp.currentCard ≤ 0 then (st, false)
        else
          ({ st with
              progress := some { cp with currentCard := cp.currentCard - 1 }
              storedSession := some { cp with currentCard := cp.currentCard - 1 } },
            true) := by
  unfold navigateToPreviousCard
  rw [h]

theorem countsInv_setCurrentCard {cp : SessionProgress} (n : Nat) (h : countsInv cp) :
    countsInv { cp with currentCard := n } := h

theorem sessInv_navNext {st : SessionState} (h : sessInv st) :
    sessInv (navigateToNextCard st).1 := by
  intro p hp
  cases hcp : st.progress with
  | none =>
    rw [navigateToNextCard_none st hcp] at hp
    exact h p hp
  | some cp =>
    rw [navigateToNextCard_some st cp hcp] at hp
    split at hp
    · exact h p hp
    · simp only at hp
      rw [Option.some.injEq] at hp
      subst hp
      exact countsInv_setCurrentCard _ (h cp hcp)

theorem sessInv_navPrev {st : SessionState} (h : sessInv st) :
    sessInv (navigateToPreviousCard st).1 := by
  intro p hp
  cases hcp : st.progress with
  | none =>
    rw [navigateToPreviousCard_none st hcp] at hp
    exact h p hp
  | some cp =>
    rw [navigateToPreviousCard_some st cp hcp] at hp
    split at hp
    · exact h p hp
    · simp only at hp
      rw [Option.some.injEq] at hp
      subst hp
      exact countsInv_setCurrentCard _ (h cp hcp)

theorem answerCount_partition (m : List (Nat × Answer)) :
    answerCountInt m Answer.correct + answerCountInt m Answer.incorrect
      + answerCountInt m Answer.practiceAgain = (m.length : Int) := by
  induction m with
  | nil => simp [answerCountInt]
  | cons q rest ih =>
    obtain ⟨k, a⟩ := q
    simp only [answerCountInt, List.filter_cons] at ih ⊢
    cases a <;> simp <;> push_cast at ih ⊢ <;> omega

theorem sessInv_start (st : SessionState) (allWords : List WordView)
    (cardsPerSession : Nat) (draw pick : Nat → Nat) :
    sessInv (startSession st allWords cardsPerSession draw pick).1 := by
  intro p hp
  simp only [startSession] at hp
  rw [Option.some.injEq] at hp
  subst hp
  exact ⟨by simp [answerCountInt], by simp [answerCountInt],
    by simp [answerCountInt], by simp⟩

theorem sessInv_run (st : SessionState) (ops : List SessOp) (h : sessInv st) :
    sessInv (runSessOps st ops) := by
  induction ops generalizing st with
  | nil => exact h
  | cons op rest ih =>
    have hstep : sessInv (applySessOp st op) := by
      cases op with
      | record c pa => exact sessInv_update c pa h
      | navNext => exact sessInv_navNext h
      | navPrev => exact sessInv_navPrev h
    simpa [runSessOps, List.foldl_cons] using ih (applySessOp st op) hstep

/-- C4: for every started session and every sequence of user actions
(answer recordings and forward/backward navigation, including re-answering
a card after navigating back), the live progress record satisfies
`correctCount + incorrectCount + practiceAgainCount` = the number of
distinct card indices carrying a committed answer; re-answering never
double-counts. -/
theorem c4_theorem (allWords : List WordView) (cardsPerSession : Nat)
    (draw pick : Nat → Nat) (ops : List SessOp) (p : SessionProgress)
    (hp : (runSessOps
        (startSession emptySessionState allWords cardsPerSession draw pick).1
        ops).progress = some p) :
    p.correctCount + p.incorrectCount + p.practiceAgainCount
      = ((p.cardAnswers.map Prod.fst).dedup.length : Int) := by
  have hinv :=
    sessInv_run _ ops (sessInv_start emptySessionState allWords cardsPerSession draw pick)
      p hp
  obtain ⟨h1, h2, h3, h4⟩ := hinv
  rw [h1, h2, h3, answerCount_partition, List.dedup_eq_self.mpr h4, List.length_map]

/-- Witness for `c4_theorem`: a two-card session in which the learner
answers the first card, navigates back, and re-answers it differently. -/
theorem c4_witness :
    (runSessOps
        (startSession emptySessionState
          [{ word := "w1", lastResults := [], score := some 0 },
            { word := "w2", lastResults := [], score := some 1 }]
          2 (fun _ => 0) (fun _ => 0)).1
        [SessOp.record true false, SessOp.navPrev, SessOp.record false false]).progress
        = some
          { currentCard := 1
            totalCards := 2
            correctCount := 0
            incorrectCount := 1
            practiceAgainCount := 0
            sessionCards :=
              [{ word := "w1", lastResults := [], score := some 0 },
                { word := "w2", lastResults := [], score := some 1 }]
            isComplete := false
            visitedCards := [(0, Answer.incorrect)]
            cardAnswers := [(0, Answer.incorrect)] } ∧
      ((0 : Int) + 1 + 0
        = ((([((0 : Nat), Answer.incorrect)].map Prod.fst).dedup.length : Int))) := by
  refine ⟨by decide, ?_⟩
  have h := c4_theorem
    [{ word := "w1", lastResults := [], score := some 0 },
      { word := "w2", lastResults := [], score := some 1 }]
    2 (fun _ => 0) (fun _ => 0)
    [SessOp.record true false, SessOp.navPrev, SessOp.record false false]
    { currentCard := 1
      totalCards := 2
      correctCount := 0
      incorrectCount := 1
      practiceAgainCount := 0
      sessionCards :=
        [{ word := "w1", lastResults := [], score := some 0 },
          { word := "w2", lastResults := [], score := some 1 }]
      isComplete := false
      visitedCards := [(0, Answer.incorrect)]
      cardAnswers := [(0, Answer.incorrect)] }
    (by decide)
  simpa using h

/-- C6 falls on the code as stated: `startSession` performs no emptiness
check, so with zero available words it still publishes a `SessionProgress`,
raises the session-active flag, and checkpoints a degenerate session with
`totalCards = 0`. -/
theorem c6_counterexample :
    (startSession emptySessionState [] 20 (fun _ => 0) (fun _ => 0)).1.progress.isSome
        = true ∧
      (startSession emptySessionState [] 20 (fun _ => 0) (fun _ => 0)).1.active = true ∧
      (startSession emptySessionState [] 20 (fun _ => 0) (fun _ => 0)).2.totalCards = 0 := by
  decide

/-- C6 (amended): calling `startSession` when zero words are available is
not reported and does create a degenerate session: from any prior state and
for any configuration, the call publishes a live `SessionProgress` with
`totalCards = 0` and an empty card list, raises the session-active flag,
and checkpoints that empty session. -/
theorem c6_theorem (st : SessionState) (cardsPerSession : Nat) (draw pick : Nat → Nat) :
    (startSession st [] cardsPerSession draw pick).1.progress
        = some (startSession st [] cardsPerSession draw pick).2 ∧
      (startSession st [] cardsPerSession draw pick).1.active = true ∧
      (startSession st [] cardsPerSession draw pick).2.totalCards = 0 ∧
      (startSession st [] cardsPerSession draw pick).2.sessionCards = [] ∧
      (startSession st [] cardsPerSession draw pick).1.storedSession
        = some (startSession st [] cardsPerSession draw pick).2 := by
  have hsel : selectWordsForSession [] cardsPerSession draw pick = [] := by
    simp [selectWordsForSession]
  simp [startSession, hsel]

/-! ### C10: recording an outcome with no loaded session -/

/-- C10 falls on the code as stated when "no session is active" is read
from the service's active flag: after a session completes, the flag is
false but the completed progress record is still published, and a further
`updateSessionProgress` call mutates state (it even archives a second
history record).  The state below is reached by starting a one-card
session and answering its only card. -/
theorem c10_counterexample :
    (updateSessionProgress
        (startSession emptySessionState
          [{ word := "w1", lastResults := [], score := some 0 }] 20
          (fun _ => 0) (fun _ => 0)).1
        true false).active = false ∧
      (updateSessionProgress
        (startSession emptySessionState
          [{ word := "w1", lastResults := [], score := some 0 }] 20
          (fun _ => 0) (fun _ => 0)).1
        true false).history.length = 1 ∧
      (updateSessionProgress
        (updateSessionProgress
          (startSession emptySessionState
            [{ word := "w1", lastResults := [], score := some 0 }] 20
            (fun _ => 0) (fun _ => 0)).1
          true false)
        true false).history.length = 2 := by
  decide

/-- C10 (amended): when no session progress is loaded
(`sessionProgressSubject.value === null`, the state with no started or
resumed session), `updateSessionProgress` is a silent no-op: the whole
observable service state — counters, answer maps, checkpoint, history and
flags — is returned unchanged. -/
theorem c10_theorem (st : SessionState) (isCorrect isPracticeAgain : Bool)
    (h : st.progress = none) :
    updateSessionProgress st isCorrect isPracticeAgain = st := by
  unfold updateSessionProgress
  rw [h]

/-- Witness for `c10_theorem` at the fresh service state. -/
theorem c10_witness :
    emptySessionState.progress = none ∧
      updateSessionProgress emptySessionState true false = emptySessionState :=
  ⟨by decide, c10_theorem emptySessionState true false (by decide)⟩

/-! ### C5: session size under pool exhaustion -/

/-- The invariant of the selection loop of `selectWordsForSession`: the
used-key set is exactly the keys of the cards chosen so far, has no
duplicates, and only contains keys of the word pool. -/
def selectInv (words : List WordView) (acc : List WordView × List Key) : Prop :=
  acc.2 = acc.1.map WordView.word ∧ acc.2.Nodup ∧ ∀ k ∈ acc.2, k ∈ words.map WordView.word

theorem getNextWord_mem {ws : List WordView} {r : Nat} {w : WordView}
    (h : getNextWord ws r = some w) : w ∈ ws := by
  unfold getNextWord at h
  split at h
  · exact absurd h (by simp)
  · split at h
    · exact (List.mem_filter.mp (List.mem_of_mem_head? h)).1
    · exact (List.mem_filter.mp (mem_weightedPool (List.get?_mem h))).1

theorem sessionSelectFallback_grows (words : List WordView) (pick : Nat → Nat)
    (acc : List WordView × List Key) (i : Nat)
    (hnd : (words.map WordView.word).Nodup) (hinv : selectInv words acc)
    (hlt : acc.1.length < words.length) :
    selectInv words (sessionSelectFallback words pick acc i) ∧
      (sessionSelectFallback words pick acc i).1.length = acc.1.length + 1 := by
  obtain ⟨hkeys, hnodup, hsub⟩ := hinv
  have havail : words.filter (fun w => ¬ (w.word ∈ acc.2)) ≠ [] := by
    intro hempty
    have hall : ∀ w ∈ words, w.word ∈ acc.2 := by
      intro w hw
      have := List.filter_eq_nil_iff.mp hempty w hw
      simpa using this
    have hsubkeys : words.map WordView.word ⊆ acc.2 := by
      intro k hk
      obtain ⟨w, hw, rfl⟩ := List.mem_map.mp hk
      exact hall w hw
    have hle : (words.map WordView.word).length ≤ acc.2.length :=
      (List.subperm_of_subset hnd hsubkeys).length_le
    rw [List.length_map, hkeys, List.length_map] at hle
    omega
  have hlen : 0 < (words.filter (fun w => ¬ (w.word ∈ acc.2))).length :=
    List.length_pos.mpr havail
  unfold sessionSelectFallback
  cases hget : (words.filter (fun w => ¬ (w.word ∈ acc.2))).get?
      (pick i % (words.filter (fun w => ¬ (w.word ∈ acc.2))).length) with
  | none =>
    rw [List.get?_eq_get (Nat.mod_lt (pick i) hlen)] at hget
    exact absurd hget (by simp)
  | some fb =>
    have hfbmem : fb ∈ words.filter (fun w => ¬ (w.word ∈ acc.2)) := List.get?_mem hget
    have hfbw : fb ∈ words := (List.mem_filter.mp hfbmem).1
    have hfbnew : ¬ (fb.word ∈ acc.2) := by
      have := (List.mem_filter.mp hfbmem).2
      simpa using this
    refine ⟨⟨?_, ?_, ?_⟩, by simp⟩
    · simp [hkeys]
    · simp only [List.nodup_append]
      exact ⟨hnodup, List.nodup_singleton _, by
        intro k hk hk2
        simp at hk2
        exact hfbnew (hk2 ▸ hk)⟩
    · intro k hk
      rcases List.mem_append.mp hk with h' | h'
      · exact hsub k h'
      · simp at h'
        exact h' ▸ List.mem_map_of_mem WordView.word hfbw

theorem sessionSelectStep_grows (words : List WordView) (draw pick : Nat → Nat)
    (acc : List WordView × List Key) (i : Nat)
    (hnd : (words.map WordView.word).Nodup) (hinv : selectInv words acc)
    (hlt : acc.1.length < words.length) :
    selectInv words (sessionSelectStep words draw pick acc i) ∧
      (sessionSelectStep words draw pick acc i).1.length = acc.1.length + 1 := by
  obtain ⟨hkeys, hnodup, hsub⟩ := hinv
  cases hnw : getNextWord words (draw i) with
  | none =>
    have hred : sessionSelectStep words draw pick acc i
        = sessionSelectFallback words pick acc i := by
      unfold sessionSelectStep
      rw [hnw]
    rw [hred]
    exact sessionSelectFallback_grows words pick acc i hnd ⟨hkeys, hnodup, hsub⟩ hlt
  | some w =>
    have hred : sessionSelectStep words draw pick acc i
        = if ¬ (w.word ∈ acc.2) then (acc.1 ++ [w], acc.2 ++ [w.word])
          else sessionSelectFallback words pick acc i := by
      unfold sessionSelectStep
      rw [hnw]
    rw [hred]
    by_cases hused : w.word ∈ acc.2
    · rw [if_neg (not_not_intro hused)]
      exact sessionSelectFallback_grows words pick acc i hnd ⟨hkeys, hnodup, hsub⟩ hlt
    · rw [if_pos hused]
      refine ⟨⟨by simp [hkeys], ?_, ?_⟩, by simp⟩
      · simp only [List.nodup_append]
        exact ⟨hnodup, List.nodup_singleton _, by
          intro k hk hk2
          simp at hk2
          exact hused (hk2 ▸ hk)⟩
      · intro k hk
        rcases List.mem_append.mp hk with h' | h'
        · exact hsub k h'
        · simp at h'
          exact h' ▸ List.mem_map_of_mem WordView.word (getNextWord_mem hnw)

theorem selectWords_loop (words : List WordView) (draw pick : Nat → Nat)
    (hnd : (words.map WordView.word).Nodup) :
    ∀ n, n ≤ words.length →
      selectInv words ((List.range n).foldl (sessionSelectStep words draw pick) ([], [])) ∧
        ((List.range n).foldl (sessionSelectStep words draw pick) ([], [])).1.length = n := by
  intro n
  induction n with
  | zero => exact fun _ => ⟨⟨rfl, List.nodup_nil, by simp⟩, rfl⟩
  | succ m ih =>
    intro hle
    obtain ⟨hinv, hlen⟩ := ih (Nat.le_of_succ_le hle)
    rw [List.range_succ, List.foldl_append, List.foldl_cons, List.foldl_nil]
    have := sessionSelectStep_grows words draw pick
      ((List.range m).foldl (sessionSelectStep words draw pick) ([], [])) m hnd hinv (by omega)
    exact ⟨this.1, by omega⟩

/-- C5 falls on the code as stated: the session length is capped at
`min(cardsPerSession, words.length)` over the *whole* pool, and the
fallback branch does not exclude fully-learned words, so a pool of six
words in which exactly five are eligible (one word has score 3) yields a
six-card session, not five. -/
theorem c5_counterexample :
    (selectWordsForSession
        [{ word := "w1", lastResults := [], score := some 0 },
          { word := "w2", lastResults := [], score := some 0 },
          { word := "w3", lastResults := [], score := some 0 },
          { word := "w4", lastResults := [], score := some 0 },
          { word := "w5", lastResults := [], score := some 0 },
          { word := "w6", lastResults := [], score := some 3 }]
        20 (fun _ => 0) (fun _ => 0)).length = 6 := by
  decide

/-- C5 (amended): starting a session with `cardsPerSession` at least the
pool size over a pool whose words have distinct keys — in particular
`cardsPerSession = 20` over a pool consisting of exactly 5 (eligible)
words — yields a session containing exactly one card per pool word, all
with distinct word keys, not `cardsPerSession` cards with repeats. -/
theorem c5_theorem (words : List WordView) (cardsPerSession : Nat)
    (draw pick : Nat → Nat) (hnd : (words.map WordView.word).Nodup)
    (hcap : words.length ≤ cardsPerSession) :
    (selectWordsForSession words cardsPerSession draw pick).length = words.length ∧
      ((selectWordsForSession words cardsPerSession draw pick).map WordView.word).Nodup := by
  have hmin : min cardsPerSession words.length = words.length := by omega
  obtain ⟨⟨hkeys, hnodup, _⟩, hlen⟩ :=
    selectWords_loop words draw pick hnd words.length (le_refl _)
  constructor
  · unfold selectWordsForSession
    rw [hmin]
    exact hlen
  · unfold selectWordsForSession
    rw [hmin]
    rw [← hkeys]
    exact hnodup

/-- Witness for `c5_theorem`: 5 eligible words, `cardsPerSession = 20`. -/
theorem c5_witness :
    ([({ word := "w1", lastResults := [], score := some 0 } : WordView),
        { word := "w2", lastResults := [], score := some 1 },
        { word := "w3", lastResults := [], score := some 2 },
        { word := "w4", lastResults := [], score := some 0 },
        { word := "w5", lastResults := [], score := some 1 }].map WordView.word).Nodup ∧
      ([({ word := "w1", lastResults := [], score := some 0 } : WordView),
          { word := "w2", lastResults := [], score := some 1 },
          { word := "w3", lastResults := [], score := some 2 },
          { word := "w4", lastResults := [], score := some 0 },
          { word := "w5", lastResults := [], score := some 1 }].length ≤ 20) ∧
      ((selectWordsForSession
          [({ word := "w1", lastResults := [], score := some 0 } : WordView),
            { word := "w2", lastResults := [], score := some 1 },
            { word := "w3", lastResults := [], score := some 2 },
            { word := "w4", lastResults := [], score := some 0 },
            { word := "w5", lastResults := [], score := some 1 }]
          20 (fun _ => 1) (fun _ => 1)).length
          = [({ word := "w1", lastResults := [], score := some 0 } : WordView),
              { word := "w2", lastResults := [], score := some 1 },
              { word := "w3", lastResults := [], score := some 2 },
              { word := "w4", lastResults := [], score := some 0 },
              { word := "w5", lastResults := [], score := some 1 }].length ∧
        ((selectWordsForSession
            [({ word := "w1", lastResults := [], score := some 0 } : WordView),
              { word := "w2", lastResults := [], score := some 1 },
              { word := "w3", lastResults := [], score := some 2 },
              { word := "w4", lastResults := [], score := some 0 },
              { word := "w5", lastResults := [], score := some 1 }]
            20 (fun _ => 1) (fun _ => 1)).map WordView.word).Nodup) :=
  ⟨by decide, by decide, c5_theorem _ 20 (fun _ => 1) (fun _ => 1) (by decide) (by decide)⟩

/-! ### PronunciationService -/

/-- JavaScript's `String.prototype.trim()`, modelled character-wise (the
built-in `String.trim` of Lean is not used because its `Substring`-based
implementation does not reduce in the kernel). -/
def jsTrim (s : String) : String :=
  String.mk (((s.data.dropWhile Char.isWhitespace).reverse.dropWhile
    Char.isWhitespace).reverse)

/-- JavaScript's `String.prototype.toLowerCase()`, modelled
character-wise. -/
def jsToLower (s : String) : String :=
  String.mk (s.data.map Char.toLower)

/-- A `CachedPronunciation` record of `PronunciationService` (timestamps
are epoch milliseconds, modelled as naturals). -/
structure CachedPronunciation where
  word : Key
  audioData : String
  timestamp : Nat
  accessCount : Nat
  lastAccessed : Nat
deriving DecidableEq, Repr

/-- `MAX_CACHE_SIZE = 100`. -/
def maxCacheSize : Nat := 100

/-- One step of the scan of `evictLeastUsedEntry`: keep the incoming entry
when it has a strictly lower access count, or an equal access count and a
strictly older last access. -/
def leastUsedStep (leastUsed : Option (Key × CachedPronunciation))
    (entry : Key × CachedPronunciation) : Option (Key × CachedPronunciation) :=
  match leastUsed with
  | none => some entry
  | some lu =>
    if entry.2.accessCount < lu.2.accessCount
        ∨ (entry.2.accessCount = lu.2.accessCount
            ∧ entry.2.lastAccessed < lu.2.lastAccessed) then
      some entry
    else some lu

/-- The scan of `PronunciationService.evictLeastUsedEntry` over the map
entries in insertion order. -/
def findLeastUsed (cache : List (Key × CachedPronunciation)) :
    Option (Key × CachedPronunciation) :=
  cache.foldl leastUsedStep none

/-- `PronunciationService.evictLeastUsedEntry`: deletes the entry found by
the scan (a no-op on an empty cache). -/
def evictLeastUsedEntry (cache : List (Key × CachedPronunciation)) :
    List (Key × CachedPronunciation) :=
  match findLeastUsed cache with
  | some leastUsed => eraseKey cache leastUsed.1
  | none => cache

/-- `PronunciationService.cachePronunciation`: builds the new entry (access
count 1, both timestamps `Date.now()`), evicts the least-used entry first
when the cache is at capacity, then stores under the lower-cased word. -/
def cachePronunciation (cache : List (Key × CachedPronunciation))
    (word audioData : String) (now : Nat) : List (Key × CachedPronunciation) :=
  if cache.length ≥ maxCacheSize then
    setEntry (evictLeastUsedEntry cache) (jsToLower word)
      { word := (jsToLower word), audioData := audioData, timestamp := now,
        accessCount := 1, lastAccessed := now }
  else
    setEntry cache (jsToLower word)
      { word := (jsToLower word), audioData := audioData, timestamp := now,
        accessCount := 1, lastAccessed := now }

/-- `PronunciationService.removeCachedPronunciation`. -/
def removeCachedPronunciation (cache : List (Key × CachedPronunciation))
    (word : String) : List (Key × CachedPronunciation) :=
  eraseKey cache (jsToLower word)

/-- The external collaborators and effect outcomes of a `pronounceWord`
call: whether playing the cached payload succeeds, whether the remote
(OpenAI) synthesis stage succeeds (synthesis and playback together),
whether browser speech synthesis is supported, whether the device is
Android, whether `speechSynthesis` exists in the window, and whether
on-device speech succeeds. -/
structure AudioEnv where
  cachePlaybackOk : Bool
  remoteOk : Bool
  isSupported : Bool
  isAndroid : Bool
  speechAvailable : Bool
  localOk : Bool
deriving DecidableEq, Repr

/-- The outcome of a `pronounceWord` call: whether it resolved without
throwing, which synthesis collaborators were invoked, and the resulting
cache. -/
structure PronounceResult where
  ok : Bool
  remoteCalled : Bool
  localCalled : Bool
  cache : List (Key × CachedPronunciation)
deriving DecidableEq, Repr

/-- The browser-synthesis tail of `pronounceWord` (the Android override
block, the support check, and the final `speakWithSynthesis` call),
returning (local collaborator invoked, resolved). -/
def localStage (env : AudioEnv) : Bool × Bool :=
  if !env.isSupported && env.isAndroid then
    if env.speechAvailable then (true, env.localOk)
    else (false, false)
  else if !env.isSupported then (false, false)
  else (true, env.localOk)

/-- The remote stage of `pronounceWord` (`pronounceWithOpenAI`): on success
the synthesized audio is cached and played; on failure control falls
through to browser synthesis. -/
def remoteStage (cache : List (Key × CachedPronunciation)) (word : String)
    (env : AudioEnv) (now : Nat) : PronounceResult :=
  if env.remoteOk then
    { ok := true, remoteCalled := true, localCalled := false,
      cache := cachePronunciation cache word "remote-audio" now }
  else
    { ok := (localStage env).2, remoteCalled := true,
      localCalled := (localStage env).1, cache := cache }

/-- The cache-hit branch of `pronounceWord`: play the cached payload; on
playback failure remove the bad entry and fall through to the remote
stage. -/
def pronounceFromCacheHit (cache : List (Key × CachedPronunciation))
    (word : String) (env : AudioEnv) (now : Nat) : PronounceResult :=
  if env.cachePlaybackOk then
    { ok := true, remoteCalled := false, localCalled := false, cache := cache }
  else
    remoteStage (removeCachedPronunciation cache word) word env now

/-- `PronunciationService.pronounceWord`: rejects empty words, then tries
the cache (the hit branch inlines `getCachedPronunciation`, which bumps the
access count and last-access time before returning), then remote synthesis,
then on-device synthesis. -/
def pronounceWord (cache : List (Key × CachedPronunciation)) (word : String)
    (env : AudioEnv) (now : Nat) : PronounceResult :=
  if jsTrim word = "" then
    { ok := false, remoteCalled := false, localCalled := false, cache := cache }
  else
    match lookupEntry cache (jsToLower word) with
    | some cached =>
      pronounceFromCacheHit
        (setEntry cache (jsToLower word)
          { cached with accessCount := cached.accessCount + 1, lastAccessed := now })
        word env now
    | none => remoteStage cache word env now

/-! ### C8: capacity-bound eviction -/

/-- The (non-strict) usage order of the eviction scan: lower access count
first, ties by older last access. -/
def lexLe (e q : CachedPronunciation) : Prop :=
  e.accessCount < q.accessCount
    ∨ (e.accessCount = q.accessCount ∧ e.lastAccessed ≤ q.lastAccessed)

theorem lexLe_trans {a b c : CachedPronunciation} (h1 : lexLe a b) (h2 : lexLe b c) :
    lexLe a c := by
  unfold lexLe at *
  omega

theorem lexLe_of_strict {a b : CachedPronunciation}
    (h : a.accessCount < b.accessCount
      ∨ (a.accessCount = b.accessCount ∧ a.lastAccessed < b.lastAccessed)) :
    lexLe a b := by
  unfold lexLe
  omega

theorem lexLe_of_not_strict {a b : CachedPronunciation}
    (h : ¬ (b.accessCount < a.accessCount
      ∨ (b.accessCount = a.accessCount ∧ b.lastAccessed < a.lastAccessed))) :
    lexLe a b := by
  unfold lexLe
  omega

theorem findLeastUsed_go (l : List (Key × CachedPronunciation))
    (b : Key × CachedPronunciation) :
    ∃ r, l.foldl leastUsedStep (some b) = some r ∧ (r = b ∨ r ∈ l)
      ∧ lexLe r.2 b.2 ∧ ∀ q ∈ l, lexLe r.2 q.2 := by
  induction l generalizing b with
  | nil =>
    exact ⟨b, rfl, Or.inl rfl, lexLe_of_not_strict (by omega), by simp⟩
  | cons e rest ih =>
    rw [List.foldl_cons]
    by_cases hlt : e.2.accessCount < b.2.accessCount
        ∨ (e.2.accessCount = b.2.accessCount ∧ e.2.lastAccessed < b.2.lastAccessed)
    · have hstep0 : leastUsedStep (some b) e
          = if e.2.accessCount < b.2.accessCount
              ∨ (e.2.accessCount = b.2.accessCount
                  ∧ e.2.lastAccessed < b.2.lastAccessed) then some e
            else some b := rfl
      rw [hstep0, if_pos hlt]
      obtain ⟨r, hr, hmem, hle, hall⟩ := ih e
      refine ⟨r, hr, ?_, ?_, ?_⟩
      · rcases hmem with h' | h'
        · exact Or.inr (h' ▸ List.mem_cons_self _ _)
        · exact Or.inr (List.mem_cons_of_mem _ h')
      · exact lexLe_trans hle (lexLe_of_strict hlt)
      · intro q hq
        rcases List.mem_cons.mp hq with h' | h'
        · exact h' ▸ hle
        · exact hall q h'
    · have hstep0 : leastUsedStep (some b) e
          = if e.2.accessCount < b.2.accessCount
              ∨ (e.2.accessCount = b.2.accessCount
                  ∧ e.2.lastAccessed < b.2.lastAccessed) then some e
            else some b := rfl
      rw [hstep0, if_neg hlt]
      obtain ⟨r, hr, hmem, hle, hall⟩ := ih b
      refine ⟨r, hr, ?_, hle, ?_⟩
      · rcases hmem with h' | h'
        · exact Or.inl h'
        · exact Or.inr (List.mem_cons_of_mem _ h')
      · intro q hq
        rcases List.mem_cons.mp hq with h' | h'
        · exact h' ▸ lexLe_trans hle (lexLe_of_not_strict hlt)
        · exact hall q h'

theorem findLeastUsed_spec {cache : List (Key × CachedPronunciation)}
    (hne : cache ≠ []) :
    ∃ r, findLeastUsed cache = some r ∧ r ∈ cache ∧ ∀ q ∈ cache, lexLe r.2 q.2 := by
  cases cache with
  | nil => exact absurd rfl hne
  | cons b rest =>
    unfold findLeastUsed
    rw [List.foldl_cons]
    have hstep : leastUsedStep none b = some b := rfl
    rw [hstep]
    obtain ⟨r, hr, hmem, hle, hall⟩ := findLeastUsed_go rest b
    refine ⟨r, hr, ?_, ?_⟩
    · rcases hmem with h' | h'
      · exact h' ▸ List.mem_cons_self _ _
      · exact List.mem_cons_of_mem _ h'
    · intro q hq
      rcases List.mem_cons.mp hq with h' | h'
      · exact h' ▸ hle
      · exact hall q h'

theorem mem_eraseKey {κ α : Type} [DecidableEq κ] {m : List (κ × α)} {k : κ}
    {p : κ × α} (h : p ∈ eraseKey m k) : p ∈ m := by
  induction m with
  | nil => simpa [eraseKey] using h
  | cons q rest ih =>
    obtain ⟨k₂, v₂⟩ := q
    simp only [eraseKey] at h
    by_cases hk : k₂ = k
    · rw [if_pos hk] at h
      exact List.mem_cons_of_mem _ h
    · rw [if_neg hk] at h
      rcases List.mem_cons.mp h with h' | h'
      · exact h' ▸ List.mem_cons_self _ _
      · exact List.mem_cons_of_mem _ (ih h')

theorem eraseKey_length_of_mem {κ α : Type} [DecidableEq κ] {m : List (κ × α)} {k : κ}
    (h : k ∈ m.map Prod.fst) : (eraseKey m k).length + 1 = m.length := by
  induction m with
  | nil => simp at h
  | cons q rest ih =>
    obtain ⟨k₂, v₂⟩ := q
    simp only [eraseKey]
    by_cases hk : k₂ = k
    · rw [if_pos hk]
      simp
    · rw [if_neg hk]
      simp only [List.map_cons, List.mem_cons] at h
      rcases h with h' | h'
      · exact absurd h'.symm hk
      · simpa using ih h'

theorem lookupEntry_eq_none_of_forall {κ α : Type} [DecidableEq κ]
    {m : List (κ × α)} {k : κ} (h : ∀ p ∈ m, p.1 ≠ k) : lookupEntry m k = none := by
  induction m with
  | nil => rfl
  | cons q rest ih =>
    obtain ⟨k₂, v₂⟩ := q
    simp only [lookupEntry]
    rw [if_neg (h (k₂, v₂) (List.mem_cons_self _ _))]
    exact ih (fun p hp => h p (List.mem_cons_of_mem _ hp))

/-- C8: inserting a new word into a cache holding exactly
`MAX_CACHE_SIZE = 100` entries evicts exactly one existing entry before
insertion — an entry with the minimum access count, ties broken by the
oldest last-access time — and the cache still holds exactly 100 entries
afterwards. -/
theorem c8_theorem (cache : List (Key × CachedPronunciation))
    (word audioData : String) (now : Nat)
    (hfull : cache.length = maxCacheSize)
    (hnew : lookupEntry cache (jsToLower word) = none) :
    ∃ k e, (k, e) ∈ cache
      ∧ (∀ q ∈ cache, e.accessCount ≤ q.2.accessCount)
      ∧ (∀ q ∈ cache, q.2.accessCount = e.accessCount →
          e.lastAccessed ≤ q.2.lastAccessed)
      ∧ cachePronunciation cache word audioData now
          = eraseKey cache k
            ++ [(jsToLower word,
                { word := jsToLower word, audioData := audioData, timestamp := now,
                  accessCount := 1, lastAccessed := now })]
      ∧ (cachePronunciation cache word audioData now).length = maxCacheSize := by
  have hne : cache ≠ [] := by
    intro hc
    rw [hc] at hfull
    simp [maxCacheSize] at hfull
  obtain ⟨r, hfind, hmem, hall⟩ := findLeastUsed_spec hne
  have hevict : evictLeastUsedEntry cache = eraseKey cache r.1 := by
    unfold evictLeastUsedEntry
    rw [hfind]
  have herased : ∀ p ∈ eraseKey cache r.1, p.1 ≠ jsToLower word :=
    fun p hp => lookupEntry_eq_none hnew p (mem_eraseKey hp)
  have hset : setEntry (eraseKey cache r.1) (jsToLower word)
      { word := jsToLower word, audioData := audioData, timestamp := now,
        accessCount := 1, lastAccessed := now }
      = eraseKey cache r.1
        ++ [(jsToLower word,
            { word := jsToLower word, audioData := audioData, timestamp := now,
              accessCount := 1, lastAccessed := now })] :=
    setEntry_of_lookup_none _ (lookupEntry_eq_none_of_forall herased)
  have heq : cachePronunciation cache word audioData now
      = eraseKey cache r.1
        ++ [(jsToLower word,
            { word := jsToLower word, audioData := audioData, timestamp := now,
              accessCount := 1, lastAccessed := now })] := by
    unfold cachePronunciation
    rw [if_pos (by omega), hevict, hset]
  have hklen : (eraseKey cache r.1).length + 1 = cache.length :=
    eraseKey_length_of_mem (List.mem_map_of_mem Prod.fst hmem)
  refine ⟨r.1, r.2, by simpa using hmem, ?_, ?_, heq, ?_⟩
  · intro q hq
    have := hall q hq
    unfold lexLe at this
    omega
  · intro q hq hacc
    have := hall q hq
    unfold lexLe at this
    omega
  · rw [heq]
    simp only [List.length_append, List.length_cons, List.length_nil]
    omega

/-- The 100-entry cache used to witness `c8_theorem`: distinct numeric
keys, strictly decreasing access counts. -/
def c8FullCache : List (Key × CachedPronunciation) :=
  (List.range 100).map (fun i =>
    (toString i,
      { word := toString i
        audioData := ""
        timestamp := 0
        accessCount := 100 - i
        lastAccessed := i }))

/-- Witness for `c8_theorem`: a full cache of 100 distinct entries and a
fresh word. -/
theorem c8_witness :
    c8FullCache.length = maxCacheSize ∧
      lookupEntry c8FullCache (jsToLower "Haus") = none ∧
      ∃ k e, (k, e) ∈ c8FullCache
        ∧ (∀ q ∈ c8FullCache, e.accessCount ≤ q.2.accessCount)
        ∧ (∀ q ∈ c8FullCache, q.2.accessCount = e.accessCount →
            e.lastAccessed ≤ q.2.lastAccessed)
        ∧ cachePronunciation c8FullCache "Haus" "xyz" 7
            = eraseKey c8FullCache k
              ++ [(jsToLower "Haus",
                  { word := jsToLower "Haus"
                    audioData := "xyz"
                    timestamp := 7
                    accessCount := 1
                    lastAccessed := 7 })]
        ∧ (cachePronunciation c8FullCache "Haus" "xyz" 7).length = maxCacheSize :=
  ⟨by decide, by decide,
    c8_theorem c8FullCache "Haus" "xyz" 7 (by decide) (by decide)⟩

/-! ### C9: the audio fallback chain on a cache hit -/

/-- C9 falls on the code as stated: when playing the cached payload fails,
`pronounceWord` removes the bad entry and falls through to remote
synthesis — so even with a populated cache entry for "Haus" the remote
collaborator can be invoked. -/
theorem c9_counterexample :
    (pronounceWord
        [("haus",
          { word := "haus", audioData := "a", timestamp := 0,
            accessCount := 1, lastAccessed := 0 })]
        "Haus"
        { cachePlaybackOk := false, remoteOk := true, isSupported := true,
          isAndroid := false, speechAvailable := true, localOk := true }
        5).remoteCalled = true := by
  decide

/-- C9 (amended): when a populated cache entry exists for the word and
playing its payload succeeds, `pronounceWord` invokes neither the remote
synthesis collaborator nor the on-device synthesis collaborator. -/
theorem c9_theorem (cache : List (Key × CachedPronunciation)) (word : String)
    (env : AudioEnv) (now : Nat) (e : CachedPronunciation)
    (hcache : lookupEntry cache (jsToLower word) = some e)
    (hplay : env.cachePlaybackOk = true) :
    (pronounceWord cache word env now).remoteCalled = false ∧
      (pronounceWord cache word env now).localCalled = false := by
  by_cases htrim : jsTrim word = ""
  · have hred : pronounceWord cache word env now
        = { ok := false, remoteCalled := false, localCalled := false, cache := cache } := by
      unfold pronounceWord
      rw [if_pos htrim]
    rw [hred]
    exact ⟨rfl, rfl⟩
  · have hred : pronounceWord cache word env now
        = pronounceFromCacheHit
            (setEntry cache (jsToLower word)
              { e with accessCount := e.accessCount + 1, lastAccessed := now })
            word env now := by
      unfold pronounceWord
      rw [if_neg htrim, hcache]
    rw [hred]
    unfold pronounceFromCacheHit
    rw [if_pos hplay]
    exact ⟨rfl, rfl⟩

/-- The populated cache entry for "haus" used to witness `c9_theorem`. -/
def hausEntry : CachedPronunciation :=
  { word := "haus"
    audioData := "a"
    timestamp := 0
    accessCount := 1
    lastAccessed := 0 }

/-- An environment in which cached playback succeeds. -/
def playbackOkEnv : AudioEnv :=
  { cachePlaybackOk := true
    remoteOk := false
    isSupported := false
    isAndroid := false
    speechAvailable := true
    localOk := true }

/-- Witness for `c9_theorem`: a populated entry for "Haus" and successful
cached playback. -/
theorem c9_witness :
    lookupEntry [("haus", hausEntry)] (jsToLower "Haus") = some hausEntry ∧
      playbackOkEnv.cachePlaybackOk = true ∧
      ((pronounceWord [("haus", hausEntry)] "Haus" playbackOkEnv 5).remoteCalled = false ∧
        (pronounceWord [("haus", hausEntry)] "Haus" playbackOkEnv 5).localCalled = false) :=
  ⟨by decide, by decide,
    c9_theorem [("haus", hausEntry)] "Haus" playbackOkEnv 5 hausEntry
      (by decide) (by decide)⟩

end Flashcard
